import Mathlib

/-!
Verification of the JWT test-token generator (`backend/generate-jwt.py`).

The script is embedded shallowly: strings are `List Char`, bytes are `Nat`
(kept below 256), datetimes are a record of whole seconds since the epoch
plus microseconds.  The script's own straight-line code (constants, claims
payload, output lines) is translated directly from the source; the behavior
of the third-party libraries it calls (`jwt.encode`, `json.dumps`,
`base64`, `hashlib`/HMAC) is modelled from the specification's description
of them (compact JWS over HMAC-SHA256, base64url without padding, indented
JSON dump with `default=str`).
-/

/-- Characters of a string literal, used to keep all text as `List Char`. -/
def strL (s : String) : List Char := s.data

/-- Decimal digit character for a value below ten. -/
def digitCh (d : Nat) : Char := Char.ofNat (48 + d)

/-- Fuel-driven decimal rendering: most significant digit first. -/
def natDigitsAux : Nat → Nat → List Char
  | 0, _ => []
  | fuel + 1, n =>
    if n < 10 then [digitCh n]
    else natDigitsAux fuel (n / 10) ++ [digitCh (n % 10)]

/-- Decimal rendering of a natural number, as Python renders an `int`. -/
def natDigits (n : Nat) : List Char := natDigitsAux (n + 1) n

/-- Numeric value of a decimal digit string (left fold, base ten). -/
def digitsVal (cs : List Char) : Nat :=
  cs.foldl (fun acc c => acc * 10 + (c.toNat - 48)) 0

/-- UTC datetime as captured by `datetime.utcnow()`: whole seconds since
the Unix epoch together with the sub-second microseconds. -/
structure Datetime where
  sec : Nat
  micro : Nat
deriving DecidableEq

/-- Addition of a whole-second `timedelta` to a datetime. -/
def addSeconds (d : Datetime) (s : Nat) : Datetime := ⟨d.sec + s, d.micro⟩

/-- A value stored in the Python claims dict: a string, an int, or a
datetime object. -/
inductive PVal where
  | s (v : List Char)
  | n (v : Nat)
  | t (v : Datetime)
deriving DecidableEq

/-- A JSON scalar appearing in the encoded token: only strings and
integers occur. -/
inductive JVal where
  | s (v : List Char)
  | n (v : Nat)
deriving DecidableEq

-- JWT configuration from auth_handler.go (source line 8)
def JWT_SECRET : List Char := strL "zkpay-jwt-secret-key-2025"

-- Test user configuration (source lines 11-13)
def USER_ADDRESS : List Char := strL "0x742d35Cc6634C0532925a3b0F26750C66d78EB66"

def CHAIN_ID : Nat := 714

def UNIVERSAL_ADDRESS : List Char := natDigits CHAIN_ID ++ ':' :: USER_ADDRESS

/-- The claims payload built at source lines 17-25, keyed in insertion
order, with `now` the datetime captured at script start. -/
def payload (now : Datetime) : List (List Char × PVal) :=
  [ (strL "user_address", PVal.s USER_ADDRESS),
    (strL "universal_address", PVal.s UNIVERSAL_ADDRESS),
    (strL "chain_id", PVal.n CHAIN_ID),
    (strL "iss", PVal.s (strL "zkpay-backend")),
    (strL "sub", PVal.s USER_ADDRESS),
    (strL "iat", PVal.t now),
    (strL "exp", PVal.t (addSeconds now 86400)),
    (strL "nbf", PVal.t now) ]

/-- Modelled from the spec: PyJWT converts `datetime` values of the
registered claims (`iat`/`exp`/`nbf`) to integer Unix timestamps in whole
seconds, dropping the microseconds; strings and ints pass through. -/
def encodeVal : PVal → JVal
  | PVal.s v => JVal.s v
  | PVal.n v => JVal.n v
  | PVal.t v => JVal.n v.sec

/-- The claim object as it appears inside the encoded token. -/
def encodeObj (o : List (List Char × PVal)) : List (List Char × JVal) :=
  o.map (fun kv => (kv.1, encodeVal kv.2))

def encodedPayload (now : Datetime) : List (List Char × JVal) :=
  encodeObj (payload now)

/-- Join a list of strings with a separator string. -/
def joinSep (sep : List Char) : List (List Char) → List Char
  | [] => []
  | [x] => x
  | x :: xs => x ++ sep ++ joinSep sep xs

/-- Modelled from the spec: compact JSON serialization of a scalar, as
produced for the token payload.  The strings involved contain no
characters needing escapes. -/
def serializeJVal : JVal → List Char
  | JVal.s v => '"' :: v ++ ['"']
  | JVal.n v => natDigits v

/-- Modelled from the spec: compact JSON serialization of an object with
separators `(",", ":")`, preserving insertion order. -/
def serializeObj (o : List (List Char × JVal)) : List Char :=
  '\x7b' :: joinSep [','] (o.map (fun kv => '"' :: kv.1 ++ '"' :: ':' :: serializeJVal kv.2)) ++ ['\x7d']

/-- UTF-8 bytes of the (all-ASCII) texts handled by the script: on ASCII,
UTF-8 is the identity on code points. -/
def strBytes (cs : List Char) : List Nat := cs.map Char.toNat

/-- Lookup of a claim value by field name. -/
def getClaim (o : List (List Char × JVal)) (k : List Char) : Option JVal :=
  (o.find? (fun kv => kv.1 = k)).map Prod.snd

/-- Lookup in the raw (pre-encoding) Python dict. -/
def getPClaim (o : List (List Char × PVal)) (k : List Char) : Option PVal :=
  (o.find? (fun kv => kv.1 = k)).map Prod.snd

/-! ## Base64url (no padding), as used for JWS segments -/

/-- Modelled from the spec: the base64url alphabet. -/
def b64Char (n : Nat) : Char :=
  if n < 26 then Char.ofNat (65 + n)
  else if n < 52 then Char.ofNat (71 + n)
  else if n < 62 then Char.ofNat (n - 4)
  else if n = 62 then Char.ofNat 45
  else Char.ofNat 95

/-- Inverse of the base64url alphabet. -/
def b64CharDec (c : Char) : Option Nat :=
  let v := c.toNat
  if 65 ≤ v ∧ v ≤ 90 then some (v - 65)
  else if 97 ≤ v ∧ v ≤ 122 then some (v - 71)
  else if 48 ≤ v ∧ v ≤ 57 then some (v + 4)
  else if v = 45 then some 62
  else if v = 95 then some 63
  else none

/-- Modelled from the spec: base64url encoding without padding
(`base64.urlsafe_b64encode(...).rstrip(b"=")`). -/
def b64Encode : List Nat → List Char
  | [] => []
  | [a] => [b64Char (a / 4), b64Char (a % 4 * 16)]
  | [a, b] => [b64Char (a / 4), b64Char (a % 4 * 16 + b / 16), b64Char (b % 16 * 4)]
  | a :: b :: c :: rest =>
      b64Char (a / 4) :: b64Char (a % 4 * 16 + b / 16) :: b64Char (b % 16 * 4 + c / 64) ::
        b64Char (c % 64) :: b64Encode rest

/-- Strict base64url decoding without padding: rejects alien characters,
a trailing group of one character, and nonzero trailing bits. -/
def b64Decode : List Char → Option (List Nat)
  | [] => some []
  | [_] => none
  | [c1, c2] =>
    match b64CharDec c1, b64CharDec c2 with
    | some w, some x => if x % 16 = 0 then some [w * 4 + x / 16] else none
    | _, _ => none
  | [c1, c2, c3] =>
    match b64CharDec c1, b64CharDec c2, b64CharDec c3 with
    | some w, some x, some y =>
        if y % 4 = 0 then some [w * 4 + x / 16, x % 16 * 16 + y / 4] else none
    | _, _, _ => none
  | c1 :: c2 :: c3 :: c4 :: rest =>
    match b64CharDec c1, b64CharDec c2, b64CharDec c3, b64CharDec c4, b64Decode rest with
    | some w, some x, some y, some z, some bs =>
        some ((w * 4 + x / 16) :: (x % 16 * 16 + y / 4) :: (y % 4 * 64 + z) :: bs)
    | _, _, _, _, _ => none

/-! ## Splitting a token at the dots -/

/-- Split a character list at every occurrence of a separator character. -/
def splitSep (sep : Char) : List Char → List (List Char)
  | [] => [[]]
  | c :: rest =>
    if c = sep then [] :: splitSep sep rest
    else
      match splitSep sep rest with
      | [] => [[c]]
      | s :: ss => (c :: s) :: ss

def splitOnDot (cs : List Char) : List (List Char) := splitSep '.' cs

/-! ## SHA-256 and HMAC-SHA256, the signing primitive of HS256 -/

/-- Truncation to a 32-bit word. -/
def w32 (x : Nat) : Nat := x % 4294967296

/-- Right rotation of a 32-bit word. -/
def rotr (n x : Nat) : Nat := w32 ((x >>> n) ||| (x <<< (32 - n)))

def bsig0 (x : Nat) : Nat := rotr 2 x ^^^ rotr 13 x ^^^ rotr 22 x

def bsig1 (x : Nat) : Nat := rotr 6 x ^^^ rotr 11 x ^^^ rotr 25 x

def ssig0 (x : Nat) : Nat := rotr 7 x ^^^ rotr 18 x ^^^ (x >>> 3)

def ssig1 (x : Nat) : Nat := rotr 17 x ^^^ rotr 19 x ^^^ (x >>> 10)

def chF (x y z : Nat) : Nat := (x &&& y) ^^^ ((x ^^^ 4294967295) &&& z)

def majF (x y z : Nat) : Nat := (x &&& y) ^^^ (x &&& z) ^^^ (y &&& z)

/-- The sixty-four SHA-256 round constants, in decimal. -/
def shaK : List Nat :=
  [1116352408, 1899447441, 3049323471, 3921009573, 961987163,
   1508970993, 2453635748, 2870763221, 3624381080, 310598401,
   607225278, 1426881987, 1925078388, 2162078206, 2614888103,
   3248222580, 3835390401, 4022224774, 264347078, 604807628,
   770255983, 1249150122, 1555081692, 1996064986, 2554220882,
   2821834349, 2952996808, 3210313671, 3336571891, 3584528711,
   113926993, 338241895, 666307205, 773529912, 1294757372,
   1396182291, 1695183700, 1986661051, 2177026350, 2456956037,
   2730485921, 2820302411, 3259730800, 3345764771, 3516065817,
   3600352804, 4094571909, 275423344, 430227734, 506948616,
   659060556, 883997877, 958139571, 1322822218, 1537002063,
   1747873779, 1955562222, 2024104815, 2227730452, 2361852424,
   2428436474, 2756734187, 3204031479, 3329325298]

/-- The eight SHA-256 initial hash-state words, in decimal. -/
def shaH0 : List Nat :=
  [1779033703, 3144134277, 1013904242, 2773480762, 1359893119,
   2600822924, 528734635, 1541459225]

/-- Big-endian 32-bit words from a byte list (length a multiple of four). -/
def toWords : List Nat → List Nat
  | a :: b :: c :: d :: rest => (a * 16777216 + b * 65536 + c * 256 + d) :: toWords rest
  | _ => []

/-- One extension step of the message schedule. -/
def extendOnce (ws : List Nat) : List Nat :=
  let n := ws.length
  ws ++ [w32 (ssig1 (ws.getD (n - 2) 0) + ws.getD (n - 7) 0 + ssig0 (ws.getD (n - 15) 0) +
    ws.getD (n - 16) 0)]

/-- Iterated message-schedule extension. -/
def msgSchedule (ws : List Nat) : Nat → List Nat
  | 0 => ws
  | k + 1 => extendOnce (msgSchedule ws k)

/-- One SHA-256 compression round on the eight-word state. -/
def roundStep (st : List Nat) (kw : Nat × Nat) : List Nat :=
  match st with
  | [a, b, c, d, e, f, g, h] =>
    let t1 := w32 (h + bsig1 e + chF e f g + kw.1 + kw.2)
    let t2 := w32 (bsig0 a + majF a b c)
    [w32 (t1 + t2), a, b, c, w32 (d + t1), e, f, g]
  | st => st

/-- Process one 64-byte block into the running hash state. -/
def processBlock (h : List Nat) (block : List Nat) : List Nat :=
  let ws := msgSchedule (toWords block) 48
  let st := (shaK.zip ws).foldl roundStep h
  List.zipWith (fun x y => w32 (x + y)) h st

/-- The eight big-endian length bytes of the bit count. -/
def lenBe8 (n : Nat) : List Nat :=
  [n / 72057594037927936 % 256, n / 281474976710656 % 256, n / 1099511627776 % 256,
   n / 4294967296 % 256, n / 16777216 % 256, n / 65536 % 256, n / 256 % 256, n % 256]

/-- SHA-256 padding: a 0x80 byte, zeros to 56 mod 64, then the bit length. -/
def padMsg (msg : List Nat) : List Nat :=
  let L := msg.length
  msg ++ 0x80 :: List.replicate ((119 - L % 64) % 64) 0 ++ lenBe8 (L * 8)

/-- The padded message cut into 64-byte blocks. -/
def chunks64 (l : List Nat) : List (List Nat) :=
  match l with
  | [] => []
  | x :: xs => ((x :: xs).take 64) :: chunks64 ((x :: xs).drop 64)
termination_by l.length
decreasing_by simp [List.length_drop]; omega

/-- Big-endian bytes of a list of 32-bit words. -/
def bytesOfWords (ws : List Nat) : List Nat :=
  ws.foldr (fun w acc => (w / 16777216 % 256) :: (w / 65536 % 256) :: (w / 256 % 256) ::
    (w % 256) :: acc) []

/-- Modelled from the spec: SHA-256 of a byte list, per FIPS 180-4. -/
def sha256 (msg : List Nat) : List Nat :=
  bytesOfWords ((chunks64 (padMsg msg)).foldl processBlock shaH0)

/-- Modelled from the spec: HMAC-SHA256 with the standard 64-byte block,
ipad 0x36 and opad 0x5c, per RFC 2104. -/
def hmacSha256 (key msg : List Nat) : List Nat :=
  let k0 := if 64 < key.length then sha256 key else key
  let kp := k0 ++ List.replicate (64 - k0.length) 0
  sha256 ((kp.map (fun b => b ^^^ 0x5c)) ++ sha256 ((kp.map (fun b => b ^^^ 0x36)) ++ msg))

/-! ## The compact JWS construction (`jwt.encode`, source line 29) -/

/-- The JOSE header of the token: `alg: HS256, typ: JWT`. -/
def headerObj : List (List Char × JVal) :=
  [ (strL "alg", JVal.s (strL "HS256")), (strL "typ", JVal.s (strL "JWT")) ]

/-- The first (header) segment of every token. -/
def headerSeg : List Char := b64Encode (strBytes (serializeObj headerObj))

/-- The second (claims) segment of the token minted at datetime `d`. -/
def payloadSeg (d : Datetime) : List Char :=
  b64Encode (strBytes (serializeObj (encodedPayload d)))

/-- The signing input: header segment, a dot, claims segment. -/
def signingInput (d : Datetime) : List Char := headerSeg ++ '.' :: payloadSeg d

/-- The HMAC-SHA256 signature bytes of the token minted at `d`. -/
def sigBytes (d : Datetime) : List Nat :=
  hmacSha256 (strBytes JWT_SECRET) (strBytes (signingInput d))

/-- The third (signature) segment of the token minted at `d`. -/
def sigSeg (d : Datetime) : List Char := b64Encode (sigBytes d)

/-- Modelled from the spec: compact JWS construction — base64url-encode
the header, base64url-encode the claims, join with a dot, HMAC-SHA256 the
joined string with the secret, and append the base64url-encoded MAC. -/
def jwtEncode (p : List (List Char × PVal)) (secret : List Char) : List Char :=
  let h := b64Encode (strBytes (serializeObj headerObj))
  let pl := b64Encode (strBytes (serializeObj (encodeObj p)))
  let si := h ++ '.' :: pl
  si ++ '.' :: b64Encode (hmacSha256 (strBytes secret) (strBytes si))

/-- The token produced by source line 29. -/
def generateToken (d : Datetime) : List Char := jwtEncode (payload d) JWT_SECRET

/-! ## The printed output (source lines 31-50) -/

/-- The `"=" * 60` banner line. -/
def bannerLine : List Char := List.replicate 60 '='

/-- The `export JWT_TOKEN='...' && bash test-api.sh` usage line. -/
def exportLine (t : List Char) : List Char :=
  strL "export JWT_TOKEN=\x27" ++ t ++ strL "\x27 && bash test-api.sh"

/-- The `JWT_TOKEN='...' bash test-api.sh` usage line. -/
def plainLine (t : List Char) : List Char :=
  strL "JWT_TOKEN=\x27" ++ t ++ strL "\x27 bash test-api.sh"

/-- Modelled from the spec: `json.dumps(..., default=str)` rendering of a
claim value; a datetime is rendered through its string representation,
abstracted here as the `render` parameter. -/
def dumpsVal (render : Datetime → List Char) : PVal → List Char
  | PVal.s v => '"' :: v ++ ['"']
  | PVal.n v => natDigits v
  | PVal.t v => '"' :: render v ++ ['"']

/-- Modelled from the spec: `json.dumps(payload, indent=2, default=str)` —
each field on its own two-space-indented line, fields joined by commas. -/
def dumpsIndent2 (render : Datetime → List Char) (o : List (List Char × PVal)) : List Char :=
  strL "\x7b\n" ++
    joinSep (strL ",\n")
      (o.map (fun kv => strL "  \"" ++ kv.1 ++ strL "\": " ++ dumpsVal render kv.2)) ++
    strL "\n\x7d"

/-- The twenty lines printed by source lines 31-50, in order. -/
def outputLines (token dump : List Char) : List (List Char) :=
  [ bannerLine,
    strL "JWT Token Generated for Testing",
    bannerLine,
    [],
    strL "Token:",
    token,
    [],
    strL "Claims:",
    dump,
    [],
    bannerLine,
    strL "Usage:",
    bannerLine,
    [],
    exportLine token,
    [],
    strL "Or:",
    [],
    plainLine token,
    [] ]

/-- The full output of a successful run at datetime `d`. -/
def scriptOutput (render : Datetime → List Char) (d : Datetime) : List (List Char) :=
  outputLines (generateToken d) (dumpsIndent2 render (payload d))

/-- The run as a whole, with the signing call abstracted as a fallible
`signer`: the token is computed first (source line 29) and every print
happens after it, so a raised signing error yields no output lines. -/
def runScript (signer : List (List Char × PVal) → Except (List Char) (List Char))
    (render : Datetime → List Char) (d : Datetime) :
    Except (List Char) (List (List Char)) :=
  match signer (payload d) with
  | Except.error e => Except.error e
  | Except.ok t => Except.ok (outputLines t (dumpsIndent2 render (payload d)))

/-! ## Auxiliary definitions used by the verification -/

/-- Little-endian base-256 value of a byte list. -/
def leVal : List Nat → Nat
  | [] => 0
  | b :: r => b + 256 * leVal r

/-- The eight claim keys of the payload, in insertion order. -/
def claimKeys : List (List Char) :=
  [strL "user_address", strL "universal_address", strL "chain_id", strL "iss",
   strL "sub", strL "iat", strL "exp", strL "nbf"]

/-! ## Lemmas: decimal rendering -/

theorem digitCh_toNat : ∀ m : Nat, m < 10 → (digitCh m).toNat = 48 + m := by decide

theorem digitCh_facts : ∀ m : Nat, m < 10 →
    (digitCh m).toNat < 256 ∧ digitCh m ≠ '.' ∧ digitCh m ≠ ',' := by decide

theorem digitsVal_snoc (xs : List Char) (c : Char) :
    digitsVal (xs ++ [c]) = digitsVal xs * 10 + (c.toNat - 48) := by
  simp [digitsVal, List.foldl_append]

theorem natDigitsAux_val : ∀ fuel n : Nat, n < fuel → digitsVal (natDigitsAux fuel n) = n := by
  intro fuel
  induction fuel with
  | zero => intro n h; omega
  | succ f ih =>
    intro n h
    by_cases h10 : n < 10
    · simp [natDigitsAux, h10, digitsVal, digitCh_toNat n h10]
    · have hdiv : n / 10 < f := by
        have := Nat.div_lt_self (by omega : 0 < n) (by omega : 1 < 10)
        omega
      rw [natDigitsAux, if_neg h10, digitsVal_snoc, ih _ hdiv, digitCh_toNat _ (by omega)]
      omega

theorem digitsVal_natDigits (n : Nat) : digitsVal (natDigits n) = n :=
  natDigitsAux_val _ _ (Nat.lt_succ_self n)

theorem natDigits_inj {a b : Nat} (h : natDigits a = natDigits b) : a = b := by
  have := congrArg digitsVal h
  rwa [digitsVal_natDigits, digitsVal_natDigits] at this

theorem natDigitsAux_mem : ∀ fuel n : Nat, ∀ c ∈ natDigitsAux fuel n,
    ∃ d, d < 10 ∧ c = digitCh d := by
  intro fuel
  induction fuel with
  | zero => intro n c h; simp [natDigitsAux] at h
  | succ f ih =>
    intro n c h
    by_cases h10 : n < 10
    · rw [natDigitsAux, if_pos h10] at h
      simp at h
      exact ⟨n, h10, h⟩
    · rw [natDigitsAux, if_neg h10] at h
      rcases List.mem_append.mp h with h1 | h2
      · exact ih _ _ h1
      · simp at h2
        exact ⟨n % 10, by omega, h2⟩

theorem natDigits_mem {n : Nat} {c : Char} (h : c ∈ natDigits n) :
    ∃ d, d < 10 ∧ c = digitCh d :=
  natDigitsAux_mem _ _ _ h

/-! ## Lemmas: characters and bytes -/

theorem char_toNat_inj : Function.Injective Char.toNat := by
  intro c1 c2 h
  exact Char.ext (UInt32.ext h)

theorem strBytes_inj {l1 l2 : List Char} (h : strBytes l1 = strBytes l2) : l1 = l2 :=
  List.map_injective_iff.mpr char_toNat_inj h

/-! ## Lemmas: little-endian byte values -/

theorem leVal_lt : ∀ l : List Nat, (∀ b ∈ l, b < 256) → leVal l < 256 ^ l.length := by
  intro l
  induction l with
  | nil => intro _; simp [leVal]
  | cons b r ih =>
    intro h
    have hb : b < 256 := h b (by simp)
    have hr := ih (fun x hx => h x (by simp [hx]))
    rw [leVal, List.length_cons, pow_succ]
    have : 256 ^ r.length * 256 = 256 * 256 ^ r.length := by ring
    rw [this]
    omega

theorem leVal_inj : ∀ l1 l2 : List Nat, l1.length = l2.length →
    (∀ b ∈ l1, b < 256) → (∀ b ∈ l2, b < 256) → leVal l1 = leVal l2 → l1 = l2 := by
  intro l1
  induction l1 with
  | nil => intro l2 hl _ _ _; cases l2 with
    | nil => rfl
    | cons x t => simp at hl
  | cons b r ih =>
    intro l2 hl h1 h2 hv
    cases l2 with
    | nil => simp at hl
    | cons x t =>
      have hb : b < 256 := h1 b (by simp)
      have hx : x < 256 := h2 x (by simp)
      rw [leVal, leVal] at hv
      have hbx : b = x := by omega
      have hrt : leVal r = leVal t := by omega
      have := ih t (by simpa using hl) (fun y hy => h1 y (by simp [hy]))
        (fun y hy => h2 y (by simp [hy])) hrt
      rw [hbx, this]

/-! ## Lemmas: base64url -/

theorem b64_char_rt : ∀ n : Nat, n < 64 → b64CharDec (b64Char n) = some n := by decide

theorem b64_char_ne_dot : ∀ n : Nat, n < 64 → b64Char n ≠ '.' := by decide

theorem b64Encode_no_dot : ∀ bs : List Nat, (∀ b ∈ bs, b < 256) →
    ∀ c ∈ b64Encode bs, c ≠ '.' := by
  intro bs
  induction bs using b64Encode.induct with
  | case1 => intro _ c hc; simp [b64Encode] at hc
  | case2 a =>
    intro hb c hc
    have ha : a < 256 := hb a (by simp)
    simp [b64Encode] at hc
    rcases hc with rfl | rfl <;> exact b64_char_ne_dot _ (by omega)
  | case3 a b =>
    intro hb c hc
    have ha : a < 256 := hb a (by simp)
    have hbb : b < 256 := hb b (by simp)
    simp [b64Encode] at hc
    rcases hc with rfl | rfl | rfl <;> exact b64_char_ne_dot _ (by omega)
  | case4 a b c rest ih =>
    intro hb x hx
    have ha : a < 256 := hb a (by simp)
    have hbb : b < 256 := hb b (by simp)
    have hcc : c < 256 := hb c (by simp)
    simp only [b64Encode, List.mem_cons] at hx
    rcases hx with rfl | rfl | rfl | rfl | hx
    · exact b64_char_ne_dot _ (by omega)
    · exact b64_char_ne_dot _ (by omega)
    · exact b64_char_ne_dot _ (by omega)
    · exact b64_char_ne_dot _ (by omega)
    · exact ih (fun y hy => hb y (by simp [hy])) x hx

theorem b64_roundtrip : ∀ bs : List Nat, (∀ b ∈ bs, b < 256) →
    b64Decode (b64Encode bs) = some bs := by
  intro bs
  induction bs using b64Encode.induct with
  | case1 => intro _; rfl
  | case2 a =>
    intro hb
    have ha : a < 256 := hb a (by simp)
    rw [b64Encode, b64Decode, b64_char_rt _ (by omega), b64_char_rt _ (by omega)]
    have h0 : a % 4 * 16 % 16 = 0 := by omega
    simp [h0]
    omega
  | case3 a b =>
    intro hb
    have ha : a < 256 := hb a (by simp)
    have hbb : b < 256 := hb b (by simp)
    rw [b64Encode, b64Decode, b64_char_rt _ (by omega), b64_char_rt _ (by omega),
      b64_char_rt _ (by omega)]
    have h0 : b % 16 * 4 % 4 = 0 := by omega
    simp [h0]
    omega
  | case4 a b c rest ih =>
    intro hb
    have ha : a < 256 := hb a (by simp)
    have hbb : b < 256 := hb b (by simp)
    have hcc : c < 256 := hb c (by simp)
    have hrest := ih (fun y hy => hb y (by simp [hy]))
    rw [b64Encode, b64Decode, b64_char_rt _ (by omega), b64_char_rt _ (by omega),
      b64_char_rt _ (by omega), b64_char_rt _ (by omega), hrest]
    simp
    omega

/-! ## Lemmas: splitting at a separator -/

theorem splitSep_no_sep (sep : Char) : ∀ a : List Char, (∀ c ∈ a, c ≠ sep) →
    splitSep sep a = [a] := by
  intro a
  induction a with
  | nil => intro _; rfl
  | cons c t ih =>
    intro h
    have hc : c ≠ sep := h c (by simp)
    have iht := ih (fun x hx => h x (by simp [hx]))
    simp [splitSep, hc, iht]

theorem splitSep_append (sep : Char) : ∀ a r : List Char, (∀ c ∈ a, c ≠ sep) →
    splitSep sep (a ++ sep :: r) = a :: splitSep sep r := by
  intro a
  induction a with
  | nil => intro r _; simp [splitSep]
  | cons c t ih =>
    intro r h
    have hc : c ≠ sep := h c (by simp)
    have iht := ih r (fun x hx => h x (by simp [hx]))
    simp [splitSep, hc, iht]

theorem append_sep_inj (sep : Char) : ∀ d1 d2 r1 r2 : List Char,
    (∀ c ∈ d1, c ≠ sep) → (∀ c ∈ d2, c ≠ sep) →
    d1 ++ sep :: r1 = d2 ++ sep :: r2 → d1 = d2 ∧ r1 = r2 := by
  intro d1
  induction d1 with
  | nil =>
    intro d2 r1 r2 _ h2 he
    cases d2 with
    | nil => simpa using he
    | cons x t =>
      simp at he
      exact absurd he.1.symm (h2 x (by simp))
  | cons c t ih =>
    intro d2 r1 r2 h1 h2 he
    cases d2 with
    | nil =>
      simp at he
      exact absurd he.1 (h1 c (by simp))
    | cons x s =>
      simp at he
      obtain ⟨hcx, hrest⟩ := he
      obtain ⟨hts, hr⟩ := ih s r1 r2 (fun y hy => h1 y (by simp [hy]))
        (fun y hy => h2 y (by simp [hy])) hrest
      exact ⟨by rw [hcx, hts], hr⟩

/-! ## Lemmas: SHA-256 output shape -/

theorem roundStep_length (st : List Nat) (kw : Nat × Nat) :
    (roundStep st kw).length = st.length := by
  rcases st with _ | ⟨a, _ | ⟨b, _ | ⟨c, _ | ⟨d, _ | ⟨e, _ | ⟨f, _ | ⟨g, _ | ⟨h, _ | ⟨i, t⟩⟩⟩⟩⟩⟩⟩⟩⟩ <;>
    simp [roundStep]

theorem foldl_roundStep_length : ∀ l : List (Nat × Nat), ∀ st : List Nat,
    (l.foldl roundStep st).length = st.length := by
  intro l
  induction l with
  | nil => intro st; rfl
  | cons kw t ih =>
    intro st
    rw [List.foldl_cons, ih, roundStep_length]

theorem processBlock_length (h b : List Nat) (hh : h.length = 8) :
    (processBlock h b).length = 8 := by
  simp [processBlock, List.length_zipWith, foldl_roundStep_length, hh]

theorem foldl_processBlock_length : ∀ blocks : List (List Nat), ∀ h : List Nat,
    h.length = 8 → (blocks.foldl processBlock h).length = 8 := by
  intro blocks
  induction blocks with
  | nil => intro h hh; simpa using hh
  | cons b t ih =>
    intro h hh
    rw [List.foldl_cons]
    exact ih _ (processBlock_length h b hh)

theorem bytesOfWords_length : ∀ ws : List Nat, (bytesOfWords ws).length = 4 * ws.length := by
  intro ws
  induction ws with
  | nil => rfl
  | cons w t ih =>
    simp only [bytesOfWords, List.foldr_cons] at ih ⊢
    simp [ih]
    omega

theorem bytesOfWords_lt : ∀ ws : List Nat, ∀ b ∈ bytesOfWords ws, b < 256 := by
  intro ws
  induction ws with
  | nil => intro b hb; simp [bytesOfWords] at hb
  | cons w t ih =>
    intro b hb
    simp only [bytesOfWords, List.foldr_cons, List.mem_cons] at hb
    rcases hb with rfl | rfl | rfl | rfl | hb
    · exact Nat.mod_lt _ (by omega)
    · exact Nat.mod_lt _ (by omega)
    · exact Nat.mod_lt _ (by omega)
    · exact Nat.mod_lt _ (by omega)
    · exact ih b hb

theorem sha256_length (m : List Nat) : (sha256 m).length = 32 := by
  rw [sha256, bytesOfWords_length, foldl_processBlock_length _ _ (by rfl)]

theorem sha256_lt (m : List Nat) : ∀ b ∈ sha256 m, b < 256 :=
  bytesOfWords_lt _

theorem hmac_length (key msg : List Nat) : (hmacSha256 key msg).length = 32 := by
  rw [hmacSha256]
  exact sha256_length _

theorem hmac_lt (key msg : List Nat) : ∀ b ∈ hmacSha256 key msg, b < 256 := by
  rw [hmacSha256]
  exact sha256_lt _

/-! ## Lemmas: the serialized claims -/

theorem natDigits_ne_comma (n : Nat) : ∀ c ∈ natDigits n, c ≠ ',' := by
  intro c hc
  obtain ⟨d, hd, rfl⟩ := natDigits_mem hc
  exact (digitCh_facts d hd).2.2

theorem joinSep_inj_items : ∀ items1 items2 : List (List Char),
    items1.length = items2.length →
    (∀ i ∈ items1, ∀ c ∈ i, c ≠ ',') →
    (∀ i ∈ items2, ∀ c ∈ i, c ≠ ',') →
    joinSep [','] items1 = joinSep [','] items2 → items1 = items2 := by
  intro items1
  induction items1 with
  | nil =>
    intro items2 hl _ _ _
    cases items2 with
    | nil => rfl
    | cons y ys => simp at hl
  | cons x xs ih =>
    intro items2 hl h1 h2 he
    cases items2 with
    | nil => simp at hl
    | cons y ys =>
      cases xs with
      | nil =>
        cases ys with
        | nil => simpa [joinSep] using he
        | cons y2 ys2 => simp at hl
      | cons x2 xs2 =>
        cases ys with
        | nil => simp at hl
        | cons y2 ys2 =>
          simp only [joinSep] at he
          have he2 : x ++ (',' :: joinSep [','] (x2 :: xs2)) =
              y ++ (',' :: joinSep [','] (y2 :: ys2)) := by
            simpa [List.append_assoc] using he
          obtain ⟨hxy, hJ⟩ := append_sep_inj ',' x y _ _
            (h1 x (by simp)) (h2 y (by simp)) he2
          have hxs := ih (y2 :: ys2) (by simpa using hl)
            (fun i hi => h1 i (by simp [hi]))
            (fun i hi => h2 i (by simp [hi])) hJ
          rw [hxy, hxs]

theorem item_no_comma (k sv : List Char) (hk : ∀ c ∈ k, c ≠ ',') (hv : ∀ c ∈ sv, c ≠ ',') :
    ∀ c ∈ ('"' :: k) ++ ('"' :: ':' :: sv), c ≠ ',' := by
  intro c hc
  simp only [List.mem_append, List.mem_cons] at hc
  rcases hc with (rfl | hc) | (rfl | rfl | hc)
  · decide
  · exact hk c hc
  · decide
  · decide
  · exact hv c hc

theorem sval_no_comma (v : List Char) (hv : ∀ c ∈ v, c ≠ ',') :
    ∀ c ∈ serializeJVal (JVal.s v), c ≠ ',' := by
  intro c hc
  simp only [serializeJVal, List.mem_append, List.mem_cons, List.not_mem_nil, or_false] at hc
  rcases hc with (rfl | hc) | rfl
  · decide
  · exact hv c hc
  · decide

theorem payloadSer_inj (s1 μ1 s2 μ2 : Nat)
    (h : serializeObj (encodedPayload ⟨s1, μ1⟩) = serializeObj (encodedPayload ⟨s2, μ2⟩)) :
    s1 = s2 := by
  simp only [serializeObj, encodedPayload, encodeObj, payload, List.map_cons, List.map_nil,
    encodeVal, serializeJVal, addSeconds] at h
  rw [List.cons_append, List.cons_append] at h
  injection h with _ h
  have hJ := List.append_cancel_right h
  have hItems := joinSep_inj_items _ _ (by rfl)
    (by
      intro i hi
      simp only [List.mem_cons, List.not_mem_nil, or_false] at hi
      rcases hi with rfl | rfl | rfl | rfl | rfl | rfl | rfl | rfl
      · exact item_no_comma _ _ (by decide) (by decide)
      · exact item_no_comma _ _ (by decide) (by decide)
      · exact item_no_comma _ _ (by decide) (natDigits_ne_comma _)
      · exact item_no_comma _ _ (by decide) (by decide)
      · exact item_no_comma _ _ (by decide) (by decide)
      · exact item_no_comma _ _ (by decide) (natDigits_ne_comma _)
      · exact item_no_comma _ _ (by decide) (natDigits_ne_comma _)
      · exact item_no_comma _ _ (by decide) (natDigits_ne_comma _))
    (by
      intro i hi
      simp only [List.mem_cons, List.not_mem_nil, or_false] at hi
      rcases hi with rfl | rfl | rfl | rfl | rfl | rfl | rfl | rfl
      · exact item_no_comma _ _ (by decide) (by decide)
      · exact item_no_comma _ _ (by decide) (by decide)
      · exact item_no_comma _ _ (by decide) (natDigits_ne_comma _)
      · exact item_no_comma _ _ (by decide) (by decide)
      · exact item_no_comma _ _ (by decide) (by decide)
      · exact item_no_comma _ _ (by decide) (natDigits_ne_comma _)
      · exact item_no_comma _ _ (by decide) (natDigits_ne_comma _)
      · exact item_no_comma _ _ (by decide) (natDigits_ne_comma _))
    hJ
  injection hItems with _ hItems
  injection hItems with _ hItems
  injection hItems with _ hItems
  injection hItems with _ hItems
  injection hItems with _ hItems
  injection hItems with h6 _
  have h7 := List.append_cancel_left h6
  injection h7 with _ h7
  injection h7 with _ h7
  exact natDigits_inj h7

theorem mem_joinSep : ∀ items : List (List Char), ∀ c ∈ joinSep [','] items,
    c = ',' ∨ ∃ i ∈ items, c ∈ i := by
  intro items
  induction items with
  | nil => intro c hc; simp [joinSep] at hc
  | cons x xs ih =>
    intro c hc
    cases xs with
    | nil =>
      simp only [joinSep] at hc
      exact Or.inr ⟨x, by simp, hc⟩
    | cons x2 xs2 =>
      simp only [joinSep, List.mem_append, List.mem_cons, List.not_mem_nil, or_false] at hc
      rcases hc with (hc | rfl) | hc
      · exact Or.inr ⟨x, by simp, hc⟩
      · exact Or.inl rfl
      · rcases ih c hc with rfl | ⟨i, hi, hci⟩
        · exact Or.inl rfl
        · exact Or.inr ⟨i, by simp [hi], hci⟩

theorem natDigits_ascii (n : Nat) : ∀ c ∈ natDigits n, c.toNat < 256 := by
  intro c hc
  obtain ⟨d, hd, rfl⟩ := natDigits_mem hc
  exact (digitCh_facts d hd).1

theorem item_ascii (k sv : List Char) (hk : ∀ c ∈ k, c.toNat < 256)
    (hv : ∀ c ∈ sv, c.toNat < 256) :
    ∀ c ∈ ('"' :: k) ++ ('"' :: ':' :: sv), c.toNat < 256 := by
  intro c hc
  simp only [List.mem_append, List.mem_cons] at hc
  rcases hc with (rfl | hc) | (rfl | rfl | hc)
  · decide
  · exact hk c hc
  · decide
  · decide
  · exact hv c hc

theorem sval_ascii (v : List Char) (hv : ∀ c ∈ v, c.toNat < 256) :
    ∀ c ∈ serializeJVal (JVal.s v), c.toNat < 256 := by
  intro c hc
  simp only [serializeJVal, List.mem_append, List.mem_cons, List.not_mem_nil, or_false] at hc
  rcases hc with (rfl | hc) | rfl
  · decide
  · exact hv c hc
  · decide

theorem serialize_ascii (d : Datetime) :
    ∀ c ∈ serializeObj (encodedPayload d), c.toNat < 256 := by
  intro c hc
  simp only [serializeObj, encodedPayload, encodeObj, payload, List.map_cons, List.map_nil,
    encodeVal, serializeJVal, addSeconds] at hc
  rw [List.cons_append] at hc
  rcases List.mem_cons.mp hc with rfl | hc2
  · decide
  · rcases List.mem_append.mp hc2 with hc3 | hc3
    · rcases mem_joinSep _ c hc3 with rfl | ⟨i, hi, hci⟩
      · decide
      · simp only [List.mem_cons, List.not_mem_nil, or_false] at hi
        rcases hi with rfl | rfl | rfl | rfl | rfl | rfl | rfl | rfl
        · exact item_ascii _ _ (by decide) (by decide) c hci
        · exact item_ascii _ _ (by decide) (by decide) c hci
        · exact item_ascii _ _ (by decide) (natDigits_ascii _) c hci
        · exact item_ascii _ _ (by decide) (by decide) c hci
        · exact item_ascii _ _ (by decide) (by decide) c hci
        · exact item_ascii _ _ (by decide) (natDigits_ascii _) c hci
        · exact item_ascii _ _ (by decide) (natDigits_ascii _) c hci
        · exact item_ascii _ _ (by decide) (natDigits_ascii _) c hci
    · simp only [List.mem_singleton] at hc3
      subst hc3
      decide

theorem strBytes_lt (l : List Char) (h : ∀ c ∈ l, c.toNat < 256) :
    ∀ b ∈ strBytes l, b < 256 := by
  intro b hb
  simp only [strBytes, List.mem_map] at hb
  obtain ⟨c, hc, rfl⟩ := hb
  exact h c hc

/-! ## Lemmas: token structure -/

theorem token_eq (d : Datetime) :
    generateToken d = (headerSeg ++ '.' :: payloadSeg d) ++ '.' :: sigSeg d := rfl

theorem headerSeg_no_dot : ∀ c ∈ headerSeg, c ≠ '.' := by decide

theorem payloadSeg_no_dot (d : Datetime) : ∀ c ∈ payloadSeg d, c ≠ '.' :=
  b64Encode_no_dot _ (strBytes_lt _ (serialize_ascii d))

theorem sigSeg_no_dot (d : Datetime) : ∀ c ∈ sigSeg d, c ≠ '.' :=
  b64Encode_no_dot _ (hmac_lt _ _)

theorem token_split (d : Datetime) :
    splitOnDot (generateToken d) = [headerSeg, payloadSeg d, sigSeg d] := by
  rw [token_eq]
  have h1 : (headerSeg ++ '.' :: payloadSeg d) ++ '.' :: sigSeg d =
      headerSeg ++ '.' :: (payloadSeg d ++ '.' :: sigSeg d) := by
    simp [List.append_assoc]
  rw [h1, splitOnDot, splitSep_append '.' headerSeg _ headerSeg_no_dot,
    splitSep_append '.' (payloadSeg d) _ (payloadSeg_no_dot d),
    splitSep_no_sep '.' (sigSeg d) (sigSeg_no_dot d)]

theorem payloadSeg_decode (d : Datetime) :
    b64Decode (payloadSeg d) = some (strBytes (serializeObj (encodedPayload d))) :=
  b64_roundtrip _ (strBytes_lt _ (serialize_ascii d))

theorem headerSeg_decode : b64Decode headerSeg = some (strBytes (serializeObj headerObj)) :=
  b64_roundtrip _ (strBytes_lt _ (by decide))

theorem sigSeg_decode (d : Datetime) : b64Decode (sigSeg d) = some (sigBytes d) :=
  b64_roundtrip _ (hmac_lt _ _)

theorem payloadSeg_inj {d1 d2 : Datetime} (h : payloadSeg d1 = payloadSeg d2) :
    d1.sec = d2.sec := by
  have h1 := payloadSeg_decode d1
  have h2 := payloadSeg_decode d2
  rw [h, h2] at h1
  have h3 := strBytes_inj (Option.some.inj h1)
  exact payloadSer_inj d2.sec d2.micro d1.sec d1.micro (by
    cases d1
    cases d2
    exact h3) |>.symm

/-! ## The claims -/

/-- C1: for every run, the produced token decodes (ignoring the signature)
into exactly the eight-field claim set user_address, universal_address,
chain_id, iss, sub, iat, exp, nbf — no extra or missing fields — with
sub equal to user_address, iss the fixed issuer constant, and iat the
current UTC time captured at script start. -/
theorem c1_token_decodes_to_exact_claims (d : Datetime) :
    splitOnDot (generateToken d) = [headerSeg, payloadSeg d, sigSeg d] ∧
    b64Decode (payloadSeg d) = some (strBytes (serializeObj (encodedPayload d))) ∧
    (encodedPayload d).map Prod.fst = claimKeys ∧
    getClaim (encodedPayload d) (strL "user_address") = some (JVal.s USER_ADDRESS) ∧
    getClaim (encodedPayload d) (strL "sub") = getClaim (encodedPayload d) (strL "user_address") ∧
    getClaim (encodedPayload d) (strL "iss") = some (JVal.s (strL "zkpay-backend")) ∧
    getClaim (encodedPayload d) (strL "iat") = some (JVal.n d.sec) :=
  ⟨token_split d, payloadSeg_decode d, rfl, rfl, rfl, rfl, rfl⟩

/-- C2: the token is a compact JWS of exactly three dot-separated
base64url segments: base64url of the header `alg: HS256, typ: JWT`,
base64url of the claims, and the base64url HMAC-SHA256 of the joined
first two segments under the fixed shared secret. -/
theorem c2_compact_jws (d : Datetime) :
    headerSeg = b64Encode (strBytes (serializeObj headerObj)) ∧
    payloadSeg d = b64Encode (strBytes (serializeObj (encodedPayload d))) ∧
    signingInput d = headerSeg ++ '.' :: payloadSeg d ∧
    sigSeg d = b64Encode (hmacSha256 (strBytes JWT_SECRET) (strBytes (signingInput d))) ∧
    generateToken d = headerSeg ++ '.' :: (payloadSeg d ++ '.' :: sigSeg d) ∧
    splitOnDot (generateToken d) = [headerSeg, payloadSeg d, sigSeg d] ∧
    (∃ bs, b64Decode headerSeg = some bs) ∧
    (∃ bs, b64Decode (payloadSeg d) = some bs) ∧
    (∃ bs, b64Decode (sigSeg d) = some bs) :=
  ⟨rfl, rfl, rfl, rfl, by rw [token_eq]; simp [List.append_assoc], token_split d,
    ⟨_, headerSeg_decode⟩, ⟨_, payloadSeg_decode d⟩, ⟨_, sigSeg_decode d⟩⟩

/-- C3: for every run, the payload satisfies exp equal to iat plus 24
hours and nbf equal to iat, both on the datetime objects and on the
encoded integer timestamps. -/
theorem c3_exp_nbf_invariant (d : Datetime) :
    getPClaim (payload d) (strL "iat") = some (PVal.t d) ∧
    getPClaim (payload d) (strL "exp") = some (PVal.t (addSeconds d 86400)) ∧
    getPClaim (payload d) (strL "nbf") = some (PVal.t d) ∧
    getClaim (encodedPayload d) (strL "iat") = some (JVal.n d.sec) ∧
    getClaim (encodedPayload d) (strL "exp") = some (JVal.n (d.sec + 86400)) ∧
    getClaim (encodedPayload d) (strL "nbf") = some (JVal.n d.sec) :=
  ⟨rfl, rfl, rfl, rfl, rfl, rfl⟩

/-- C4: the universal_address claim is the composite string of the
decimal chain identifier, a colon, and the user address. -/
theorem c4_universal_address (d : Datetime) :
    UNIVERSAL_ADDRESS = natDigits CHAIN_ID ++ ':' :: USER_ADDRESS ∧
    UNIVERSAL_ADDRESS = strL "714:0x742d35Cc6634C0532925a3b0F26750C66d78EB66" ∧
    getClaim (encodedPayload d) (strL "universal_address") = some (JVal.s UNIVERSAL_ADDRESS) :=
  ⟨rfl, by decide, rfl⟩

/-- C5: re-signing the token's own first two segments with the fixed
secret reproduces exactly the signature segment carried in the token. -/
theorem c5_resign_reproduces_signature (d : Datetime) :
    ∃ h p s, splitOnDot (generateToken d) = [h, p, s] ∧
      s = b64Encode (hmacSha256 (strBytes JWT_SECRET) (strBytes (h ++ '.' :: p))) :=
  ⟨headerSeg, payloadSeg d, sigSeg d, token_split d, rfl⟩

/-- C7: the run is all-or-nothing — a raised signing error yields no
output lines, while a successful signing yields the complete output. -/
theorem c7_all_or_nothing (signer : List (List Char × PVal) → Except (List Char) (List Char))
    (render : Datetime → List Char) (d : Datetime) :
    (∀ e, signer (payload d) = Except.error e → runScript signer render d = Except.error e) ∧
    (∀ t, signer (payload d) = Except.ok t →
      runScript signer render d = Except.ok (outputLines t (dumpsIndent2 render (payload d)))) ∧
    runScript (fun p => Except.ok (jwtEncode p JWT_SECRET)) render d =
      Except.ok (scriptOutput render d) := by
  refine ⟨?_, ?_, rfl⟩
  · intro e he
    simp [runScript, he]
  · intro t ht
    simp [runScript, ht]

/-- C7 witness: a failing signer produces the bare error and no lines; a
successful signer produces the complete output, at a concrete run. -/
theorem c7_all_or_nothing_witness :
    runScript (fun _ => Except.error (strL "sign failure")) (fun _ => []) ⟨0, 0⟩ =
        Except.error (strL "sign failure") ∧
    runScript (fun p => Except.ok (jwtEncode p JWT_SECRET)) (fun _ => []) ⟨0, 0⟩ =
        Except.ok (outputLines (jwtEncode (payload ⟨0, 0⟩) JWT_SECRET)
          (dumpsIndent2 (fun _ => []) (payload ⟨0, 0⟩))) :=
  ⟨(c7_all_or_nothing _ _ _).1 _ rfl, (c7_all_or_nothing _ _ _).2.1 _ rfl⟩

/-- C8: on success the script prints, in order, a banner, the raw token,
the claims payload as an indented dump with timestamps rendered through
their string representation, and the two shell-invocation lines carrying
the exact token. -/
theorem c8_output_format (render : Datetime → List Char) (d : Datetime) :
    (scriptOutput render d).head? = some bannerLine ∧
    bannerLine = List.replicate 60 '=' ∧
    exportLine (generateToken d) =
      strL "export JWT_TOKEN=\x27" ++ generateToken d ++ strL "\x27 && bash test-api.sh" ∧
    plainLine (generateToken d) =
      strL "JWT_TOKEN=\x27" ++ generateToken d ++ strL "\x27 bash test-api.sh" ∧
    [bannerLine, generateToken d, dumpsIndent2 render (payload d),
      exportLine (generateToken d), plainLine (generateToken d)].Sublist
      (scriptOutput render d) := by
  refine ⟨rfl, rfl, rfl, rfl, ?_⟩
  show List.Sublist _ (outputLines (generateToken d) (dumpsIndent2 render (payload d)))
  simp only [outputLines]
  apply List.Sublist.cons₂
  apply List.Sublist.cons
  apply List.Sublist.cons
  apply List.Sublist.cons
  apply List.Sublist.cons
  apply List.Sublist.cons₂
  apply List.Sublist.cons
  apply List.Sublist.cons
  apply List.Sublist.cons₂
  apply List.Sublist.cons
  apply List.Sublist.cons
  apply List.Sublist.cons
  apply List.Sublist.cons
  apply List.Sublist.cons
  apply List.Sublist.cons₂
  apply List.Sublist.cons
  apply List.Sublist.cons
  apply List.Sublist.cons
  apply List.Sublist.cons₂
  exact List.nil_sublist _

/-- C9: the encoded iat, exp and nbf claims are integer Unix timestamps
in whole seconds — the captured microseconds are dropped by the encoder,
so the token and encoded claims are identical for any two microsecond
readings within the same second — and exp minus iat is exactly 86400 in
integer arithmetic. -/
theorem c9_integer_timestamps (sec μ1 μ2 : Nat) :
    encodedPayload ⟨sec, μ1⟩ = encodedPayload ⟨sec, μ2⟩ ∧
    generateToken ⟨sec, μ1⟩ = generateToken ⟨sec, μ2⟩ ∧
    getClaim (encodedPayload ⟨sec, μ1⟩) (strL "iat") = some (JVal.n sec) ∧
    getClaim (encodedPayload ⟨sec, μ1⟩) (strL "exp") = some (JVal.n (sec + 86400)) ∧
    getClaim (encodedPayload ⟨sec, μ1⟩) (strL "nbf") = some (JVal.n sec) ∧
    ((sec + 86400 : Nat) : ℤ) - (sec : ℤ) = 86400 := by
  refine ⟨rfl, rfl, rfl, rfl, rfl, ?_⟩
  push_cast
  ring

/-- C10: every token carries the fixed user address, chain id 714,
composite universal address and issuer, and is signed with the fixed
secret — no run varies any of them. -/
theorem c10_fixed_constants (d : Datetime) :
    JWT_SECRET = strL "zkpay-jwt-secret-key-2025" ∧
    USER_ADDRESS = strL "0x742d35Cc6634C0532925a3b0F26750C66d78EB66" ∧
    CHAIN_ID = 714 ∧
    UNIVERSAL_ADDRESS = strL "714:0x742d35Cc6634C0532925a3b0F26750C66d78EB66" ∧
    getClaim (encodedPayload d) (strL "user_address") = some (JVal.s USER_ADDRESS) ∧
    getClaim (encodedPayload d) (strL "chain_id") = some (JVal.n CHAIN_ID) ∧
    getClaim (encodedPayload d) (strL "universal_address") = some (JVal.s UNIVERSAL_ADDRESS) ∧
    getClaim (encodedPayload d) (strL "iss") = some (JVal.s (strL "zkpay-backend")) ∧
    generateToken d = jwtEncode (payload d) JWT_SECRET :=
  ⟨rfl, rfl, rfl, by decide, rfl, rfl, rfl, rfl, rfl⟩
